import Mathlib

/-!
Verification of the rustDB storage/query/replication core.

The definitions below are a shallow embedding of the repository's Rust
sources (`src/table.rs`, `src/row.rs`, `src/schema.rs`, `src/query.rs`,
`src/replication.rs`, `src/server.rs`).  Machine floats are modelled by
exact values (`FVal` below): the claims under study only depend on which
strings parse and on the structure of the comparisons, never on rounding.
-/

namespace RustDB

/-- All characters are digits and the list is the usual base-10 reading. -/
def digitsVal (l : List Char) : Nat :=
  l.foldl (fun a c => a * 10 + (c.toNat - 48)) 0

def allDigits (l : List Char) : Bool := l.all Char.isDigit

/-- Model of Rust `str::parse::<i64>`: optional sign, one or more ASCII
digits, value must fit in a signed 64-bit integer. -/
def parseI64Chars (l : List Char) : Option Int :=
  let sd : Bool × List Char :=
    match l with
    | '+' :: r => (false, r)
    | '-' :: r => (true, r)
    | r => (false, r)
  let neg := sd.1
  let ds := sd.2
  if ds.isEmpty then none
  else if !(allDigits ds) then none
  else
    let n : Nat := digitsVal ds
    if neg then
      if n ≤ 2 ^ 63 then some (-(n : Int)) else none
    else
      if n < 2 ^ 63 then some (n : Int) else none

def parseI64 (s : String) : Option Int := parseI64Chars s.data

/-- Model of a machine float value: NaN, signed infinity, or an exact
finite decimal `m * 10 ^ e`.  Exactness is the one abstraction taken
from `f64`; the claims under study never depend on rounding. -/
inductive FVal where
  | nan : FVal
  | inf : Bool → FVal
  | fin : Int → Int → FVal
deriving DecidableEq

/-- Bring `m1 * 10 ^ e1` and `m2 * 10 ^ e2` to a common exponent. -/
def scaledPair (m1 e1 m2 e2 : Int) : Int × Int :=
  if e1 ≤ e2 then (m1, m2 * (10 : Int) ^ (e2 - e1).toNat)
  else (m1 * (10 : Int) ^ (e1 - e2).toNat, m2)

/-- Value order on exact decimals. -/
def decLtB (m1 e1 m2 e2 : Int) : Bool :=
  decide ((scaledPair m1 e1 m2 e2).1 < (scaledPair m1 e1 m2 e2).2)

/-- Value equality on exact decimals. -/
def decEqB (m1 e1 m2 e2 : Int) : Bool :=
  decide ((scaledPair m1 e1 m2 e2).1 = (scaledPair m1 e1 m2 e2).2)

/-- Exponent part of the float grammar: optional sign then digits. -/
def parseExp (l : List Char) : Option Int :=
  let sd : Bool × List Char :=
    match l with
    | '+' :: r => (false, r)
    | '-' :: r => (true, r)
    | r => (false, r)
  if sd.2.isEmpty then none
  else if !(allDigits sd.2) then none
  else some (if sd.1 then -((digitsVal sd.2 : Nat) : Int) else ((digitsVal sd.2 : Nat) : Int))

/-- Number part of the Rust `f64` grammar, as mantissa and decimal
exponent: `Digit+ (. Digit*)? Exp?  |  Digit* . Digit+ Exp?`. -/
def parseNumberChars (l : List Char) : Option (Int × Int) :=
  let ip := l.takeWhile Char.isDigit
  let r1 := l.dropWhile Char.isDigit
  match r1 with
  | [] => if ip.isEmpty then none else some (((digitsVal ip : Nat) : Int), 0)
  | '.' :: r2 =>
      let fp := r2.takeWhile Char.isDigit
      let r3 := r2.dropWhile Char.isDigit
      if ip.isEmpty && fp.isEmpty then none
      else
        let m : Int := ((digitsVal (ip ++ fp) : Nat) : Int)
        let e0 : Int := -((fp.length : Nat) : Int)
        match r3 with
        | [] => some (m, e0)
        | c :: r4 =>
            if c == 'e' || c == 'E' then (parseExp r4).map fun k => (m, e0 + k)
            else none
  | c :: r4 =>
      if (c == 'e' || c == 'E') && !ip.isEmpty then
        (parseExp r4).map fun k => (((digitsVal ip : Nat) : Int), k)
      else none

/-- Model of Rust `str::parse::<f64>`: optional sign, then a
case-insensitive `inf`/`infinity`/`nan` keyword or a decimal number. -/
def parseFloatChars (l : List Char) : Option FVal :=
  let sd : Bool × List Char :=
    match l with
    | '+' :: r => (false, r)
    | '-' :: r => (true, r)
    | r => (false, r)
  let low := sd.2.map Char.toLower
  if low == ['i', 'n', 'f'] || low == ['i', 'n', 'f', 'i', 'n', 'i', 't', 'y'] then
    some (FVal.inf sd.1)
  else if low == ['n', 'a', 'n'] then some FVal.nan
  else (parseNumberChars sd.2).map fun q => FVal.fin (if sd.1 then -q.1 else q.1) q.2

def parseFloat (s : String) : Option FVal := parseFloatChars s.data

/-- IEEE-style strict less-than: any comparison with NaN is false. -/
def fvalLt : FVal → FVal → Bool
  | FVal.nan, _ => false
  | _, FVal.nan => false
  | FVal.inf true, FVal.inf true => false
  | FVal.inf true, _ => true
  | _, FVal.inf true => false
  | FVal.inf false, _ => false
  | FVal.fin _ _, FVal.inf false => true
  | FVal.fin a b, FVal.fin c d => decLtB a b c d

/-- IEEE-style equality: NaN is equal to nothing, including itself. -/
def fvalEqb : FVal → FVal → Bool
  | FVal.nan, _ => false
  | _, FVal.nan => false
  | FVal.inf a, FVal.inf b => a == b
  | FVal.fin a b, FVal.fin c d => decEqB a b c d
  | _, _ => false

def fvalGt (a b : FVal) : Bool := fvalLt b a

def fvalGe (a b : FVal) : Bool := fvalGt a b || fvalEqb a b

def fvalLe (a b : FVal) : Bool := fvalLt a b || fvalEqb a b

/-! ### Schema, row and table data model (`schema.rs`, `row.rs`, `table.rs`) -/

inductive ColumnType where
  | Int : ColumnType
  | Float : ColumnType
  | String : ColumnType
deriving DecidableEq

structure ColumnSchema where
  name : String
  col_type : ColumnType
deriving DecidableEq

structure Schema where
  columns : List ColumnSchema
deriving DecidableEq

structure Row where
  values : List String
deriving DecidableEq

structure Table where
  name : String
  schema : Schema
  rows : List Row
  primary_key : Option String
  unique_columns : List String
deriving DecidableEq

/-- `Iterator::position` over the schema columns by exact name match. -/
def colIdx (cols : List ColumnSchema) (name : String) : Option Nat :=
  cols.findIdx? fun c => c.name == name

/-- Position of the primary-key column in the schema, if both exist. -/
def pkIdx (t : Table) : Option Nat :=
  t.primary_key.bind fun pk => colIdx t.schema.columns pk

/-- One value parses under a declared column type (`add_row` type check). -/
def typeValid (ct : ColumnType) (val : String) : Bool :=
  match ct with
  | ColumnType.Int => (parseI64 val).isSome
  | ColumnType.Float => (parseFloat val).isSome
  | ColumnType.String => true

/-- `add_row` type loop from position `i`: a value with no corresponding
schema column is not checked at all. -/
def typeCheckAddFrom (cols : List ColumnSchema) : Nat → List String → Bool
  | _, [] => true
  | i, v :: rest =>
      (match cols[i]? with
       | some col => typeValid col.col_type v
       | none => true) && typeCheckAddFrom cols (i + 1) rest

def typeCheckAdd (cols : List ColumnSchema) (values : List String) : Bool :=
  typeCheckAddFrom cols 0 values

/-- `update_rows` type loop: empty entries are the "unchanged" sentinel
and are skipped entirely. -/
def typeCheckUpdateFrom (cols : List ColumnSchema) : Nat → List String → Bool
  | _, [] => true
  | i, v :: rest =>
      (if v == "" then true
       else
         match cols[i]? with
         | some col => typeValid col.col_type v
         | none => true) && typeCheckUpdateFrom cols (i + 1) rest

def typeCheckUpdate (cols : List ColumnSchema) (sv : List String) : Bool :=
  typeCheckUpdateFrom cols 0 sv

/-- Primary-key scan in `add_row`: a missing candidate value rejects the
insert, and any existing equal value at the key position rejects it. -/
def pkViolationAdd (t : Table) (values : List String) : Bool :=
  match pkIdx t with
  | none => false
  | some idx =>
      match values[idx]? with
      | none => true
      | some v => t.rows.any fun row => row.values[idx]? == some v

/-- Unique-column scan in `add_row`: candidates with no value at the
column position are exempt. -/
def uniqViolationAdd (t : Table) (values : List String) : Bool :=
  t.unique_columns.any fun uc =>
    match colIdx t.schema.columns uc with
    | none => false
    | some idx =>
        match values[idx]? with
        | none => false
        | some v => t.rows.any fun row => row.values[idx]? == some v

/-- `Table::add_row` (`table.rs`): type check, then primary key, then
unique columns; only on passing every check is the row appended. -/
def add_row (t : Table) (values : List String) : Table :=
  if !(typeCheckAdd t.schema.columns values) then t
  else if pkViolationAdd t values then t
  else if uniqViolationAdd t values then t
  else { t with rows := t.rows ++ [Row.mk values] }

/-- The in-place merge of `update_rows`: positions past the end of the
old row are dropped from `set_values`, empty entries keep the old value. -/
def mergeRow : List String → List String → List String
  | _, [] => []
  | [], old => old
  | v :: svr, o :: oldr => (if v == "" then o else v) :: mergeRow svr oldr

/-- The simulated post-state of `update_rows`: the whole table with the
tentative merge applied to every predicate-matching row. -/
def mergedRows (sv : List String) (p : List String → Bool) (rows : List Row) : List Row :=
  rows.map fun r => if p r.values then Row.mk (mergeRow sv r.values) else r

/-- Values present at one column position, in row order. -/
def presentVals (idx : Nat) (rows : List Row) : List String :=
  rows.filterMap fun r => r.values[idx]?

/-- The `HashSet::insert` duplicate scan of `update_rows`. -/
def hasDupAux : List String → List String → Bool
  | [], _ => false
  | v :: rest, seen => if v ∈ seen then true else hasDupAux rest (v :: seen)

def hasDup (l : List String) : Bool := hasDupAux l []

/-- Primary-key re-check of `update_rows` against the simulated state. -/
def pkViolationUpd (t : Table) (simulated : List Row) : Bool :=
  match pkIdx t with
  | none => false
  | some idx => hasDup (presentVals idx simulated)

/-- Unique-column re-check of `update_rows` against the simulated state. -/
def uniqViolationUpd (t : Table) (simulated : List Row) : Bool :=
  t.unique_columns.any fun uc =>
    match colIdx t.schema.columns uc with
    | none => false
    | some idx => hasDup (presentVals idx simulated)

/-- `Table::update_rows` (`table.rs`): validate types, build the
simulated state, re-check both constraints on it, and only then commit.
The final Rust loop recomputes exactly the simulated rows, so the commit
installs `mergedRows`. -/
def update_rows (t : Table) (sv : List String) (p : List String → Bool) : Table :=
  if !(typeCheckUpdate t.schema.columns sv) then t
  else
    let simulated := mergedRows sv p t.rows
    if pkViolationUpd t simulated then t
    else if uniqViolationUpd t simulated then t
    else { t with rows := simulated }

/-- `Table::delete_rows` (`table.rs`): retain rows failing the predicate. -/
def delete_rows (t : Table) (p : List String → Bool) : Table :=
  { t with rows := t.rows.filter fun r => !(p r.values) }

/-! ### Predicate compiler (`query.rs`) -/

/-- Whitespace in the sense of `str::trim` (ASCII fragment). -/
def isWS (c : Char) : Bool :=
  c == ' ' || (('\x09' : Char) ≤ c && c ≤ ('\x0d' : Char))

def trimChars (l : List Char) : List Char :=
  ((l.dropWhile isWS).reverse.dropWhile isWS).reverse

def strTrim (s : String) : String := String.mk (trimChars s.data)

/-- `str::find` for a needle starting the count at `i`. -/
def findSubAux (needle : List Char) : List Char → Nat → Option Nat
  | [], i => if needle.isEmpty then some i else none
  | c :: rest, i =>
      if needle.isPrefixOf (c :: rest) then some i else findSubAux needle rest (i + 1)

/-- Index of the first occurrence of `needle` in `hay`. -/
def findSub (hay needle : List Char) : Option Nat := findSubAux needle hay 0

/-- The fixed operator list of `query_to_predicate`, in scan order. -/
def ops : List String := ["==", "!=", ">=", "<=", ">", "<"]

/-- The operator-selection loop: the first operator in list order that
occurs anywhere in the clause wins, with its first occurrence index. -/
def findOpAux (q : List Char) : List String → Option (String × Nat)
  | [] => none
  | op :: rest =>
      match findSub q op.data with
      | some i => some (op, i)
      | none => findOpAux q rest

def findOp (q : List Char) : Option (String × Nat) := findOpAux q ops

/-- `str::trim_matches` with a single-character pattern. -/
def trimMatchesChar (c : Char) (l : List Char) : List Char :=
  ((l.dropWhile (· == c)).reverse.dropWhile (· == c)).reverse

/-- Literal clean-up: trim, then strip double quotes, then single quotes. -/
def stripLit (l : List Char) : String :=
  String.mk (trimMatchesChar ('\x27') (trimMatchesChar ('"') (trimChars l)))

/-- Split a trimmed clause at the selected operator occurrence into
`(operator, column name, literal)`. -/
def clauseParts (q : String) : Option (String × String × String) :=
  match findOp q.data with
  | none => none
  | some (op, idx) =>
      some (op, String.mk (trimChars (q.data.take idx)),
            stripLit (q.data.drop (idx + op.length)))

/-- The comparison closure built for a resolved column `i` of declared
type `ct`, operator `op` and cleaned literal `raw` (`query.rs`). -/
def compareFn (op : String) (ct : ColumnType) (i : Nat) (raw : String) :
    List String → Bool :=
  if op == "==" then
    match ct with
    | ColumnType.Int =>
        match parseI64 raw with
        | some n => fun row =>
            match (row[i]?).bind parseI64 with
            | some v => v == n
            | none => false
        | none => fun _ => false
    | ColumnType.Float =>
        match parseFloat raw with
        | some n => fun row =>
            match (row[i]?).bind parseFloat with
            | some v => fvalEqb v n
            | none => false
        | none => fun _ => false
    | ColumnType.String => fun row =>
        match row[i]? with
        | some v => v == raw
        | none => false
  else if op == "!=" then
    match ct with
    | ColumnType.Int =>
        match parseI64 raw with
        | some n => fun row =>
            match (row[i]?).bind parseI64 with
            | some v => v != n
            | none => false
        | none => fun _ => false
    | ColumnType.Float =>
        match parseFloat raw with
        | some n => fun row =>
            match (row[i]?).bind parseFloat with
            | some v => !(fvalEqb v n)
            | none => false
        | none => fun _ => false
    | ColumnType.String => fun row =>
        match row[i]? with
        | some v => v != raw
        | none => false
  else if op == ">" || op == "<" || op == ">=" || op == "<=" then
    match parseFloat raw with
    | none => fun _ => false
    | some n => fun row =>
        match (row[i]?).bind parseFloat with
        | none => false
        | some v =>
            if op == ">" then fvalGt v n
            else if op == "<" then fvalLt v n
            else if op == ">=" then fvalGe v n
            else fvalLe v n
  else fun _ => false

/-- `query_to_predicate` (`query.rs`): trim, shortcut the trivial
clauses, select the operator, split, resolve the column, and build the
typed comparison; every failure path compiles to the constant-false
predicate. -/
def query_to_predicate (cols : List ColumnSchema) (query : String) :
    List String → Bool :=
  let q := strTrim query
  if q == "" || q == "true" then fun _ => true
  else
    match clauseParts q with
    | none => fun _ => false
    | some (op, col, raw) =>
        match colIdx cols col with
        | none => fun _ => false
        | some i =>
            match cols[i]? with
            | some cs => compareFn op cs.col_type i raw
            | none => fun _ => false

/-! ### Replication manager and RPC surface (`replication.rs`, `server.rs`)

The node state is the database together with the local event log and the
fixed role.  The statement executor (`sql::execute_sql`, not part of the
storage core under study) is passed in as an arbitrary state transformer
`exec`, so every theorem below holds for every executor. -/

inductive Role where
  | Primary : Role
  | Replica : Role
deriving DecidableEq

structure ReplicationEvent where
  timestamp : Nat
  query : String
deriving DecidableEq

structure Node (DB : Type) where
  role : Role
  events : List ReplicationEvent
  db : DB

/-- One replay step of `apply_events`: execute the stored query text,
then append the event to the local log. -/
def replayStep {DB : Type} (exec : DB → String → DB)
    (st : DB × List ReplicationEvent) (e : ReplicationEvent) :
    DB × List ReplicationEvent :=
  (exec st.1 e.query, st.2 ++ [e])

/-- `ReplicationManager::apply_events` (`replication.rs`): a primary is
rejected with a hard error; a replica skips the incoming list up to its
local event count and replays the remaining suffix in order. -/
def apply_events {DB : Type} (exec : DB → String → DB) (n : Node DB)
    (events : List ReplicationEvent) : Except String (Node DB) :=
  if n.role = Role.Primary then
    Except.error ("Cannot apply replication events to primary server")
  else
    let newEvents := events.drop n.events.length
    let st := newEvents.foldl (replayStep exec) (n.db, n.events)
    Except.ok { n with db := st.1, events := st.2 }

/-- `ReplicationManager::record_event` (`replication.rs`): only a
primary appends to its log; fan-out to replicas is network-external. -/
def record_event {DB : Type} (now : Nat) (n : Node DB) (query : String) : Node DB :=
  if n.role = Role.Primary then
    { n with events := n.events ++ [ReplicationEvent.mk now query] }
  else n

/-- Outcome of a JSON-RPC method: a value or the transported error. -/
inductive RpcResult (α : Type) where
  | ok : α → RpcResult α
  | internalError : RpcResult α
deriving DecidableEq

/-- `RpcServer::replication_apply_events` (`server.rs`): forwards to the
manager and maps its error to a JSON-RPC internal error. -/
def replication_apply_events {DB : Type} (exec : DB → String → DB)
    (n : Node DB) (events : List ReplicationEvent) : RpcResult Bool × Node DB :=
  match apply_events exec n events with
  | Except.ok n2 => (RpcResult.ok true, n2)
  | Except.error _ => (RpcResult.internalError, n)

structure QueryResponse where
  success : Bool
  message : String
  rows : Option (List (List String))
deriving DecidableEq

/-- `RpcServer::execute` (`server.rs`): a replica refuses every
statement up front with `success := false`; a primary executes the
statement and records the event for replication. -/
def rpc_execute {DB : Type} (exec : DB → String → DB) (now : Nat)
    (n : Node DB) (query : String) : QueryResponse × Node DB :=
  if n.role ≠ Role.Primary then
    (QueryResponse.mk false
      ("This is a replica server. Write operations are only allowed on the primary server.")
      none, n)
  else
    let n2 := { n with db := exec n.db query }
    let n3 := record_event now n2 query
    (QueryResponse.mk true ("Query executed successfully") none, n3)

/-! ### Specification-side reformulations

These definitions restate conditions in the spec's vocabulary
(pairwise-distinct values via `List.Nodup`, existence of a failing
entry) rather than through the source's fold/seen-set loops; the
theorems below prove the source loops equivalent to them. -/

/-- Some non-empty entry of `set_values` fails to parse under its
column's declared type (spec wording of the update type check). -/
def specSetTypeFail (cols : List ColumnSchema) (sv : List String) : Bool :=
  (List.range sv.length).any fun j =>
    match sv[j]?, cols[j]? with
    | some v, some c => !(v == "") && !(typeValid c.col_type v)
    | _, _ => false

/-- The given row set violates the primary-key constraint or some
unique-column constraint: values present at the resolved column
position are not pairwise distinct. -/
def specConstraintViolation (t : Table) (rows : List Row) : Bool :=
  (match pkIdx t with
   | none => false
   | some idx => !(decide (presentVals idx rows).Nodup)) ||
  (t.unique_columns.any fun uc =>
    match colIdx t.schema.columns uc with
    | none => false
    | some idx => !(decide (presentVals idx rows).Nodup))

/-- Spec wording of the abort condition of `update_rows`: a type-check
failure, or a constraint violation on the simulated post-state. -/
def specUpdateAborts (t : Table) (sv : List String) (p : List String → Bool) : Bool :=
  specSetTypeFail t.schema.columns sv ||
  specConstraintViolation t (mergedRows sv p t.rows)

/-- The guards of `update_rows` all pass: the update commits. -/
def update_commits (t : Table) (sv : List String) (p : List String → Bool) : Bool :=
  typeCheckUpdate t.schema.columns sv &&
  !(pkViolationUpd t (mergedRows sv p t.rows)) &&
  !(uniqViolationUpd t (mergedRows sv p t.rows))

/-- Pairwise distinctness of the values present at an optional column
position (rows without a value there are exempt). -/
def nodupPresent (oi : Option Nat) (rows : List Row) : Bool :=
  match oi with
  | none => true
  | some i => decide (presentVals i rows).Nodup

/-- The constraint invariant of the spec: primary-key values pairwise
distinct, and every unique column's present values pairwise distinct. -/
def tableInv (t : Table) : Bool :=
  nodupPresent (pkIdx t) t.rows &&
  (t.unique_columns.all fun uc => nodupPresent (colIdx t.schema.columns uc) t.rows)

/-- One mutating table call, for reasoning about call sequences. -/
inductive TableOp where
  | add : List String → TableOp
  | update : List String → (List String → Bool) → TableOp
  | delete : (List String → Bool) → TableOp

def applyOp (t : Table) : TableOp → Table
  | TableOp.add values => add_row t values
  | TableOp.update sv p => update_rows t sv p
  | TableOp.delete p => delete_rows t p

def runOps (t : Table) (l : List TableOp) : Table := l.foldl applyOp t

/-- Every stored row's length equals the schema length. -/
def rowsLenOk (t : Table) : Bool :=
  t.rows.all fun r => r.values.length == t.schema.columns.length

/-- Every `add` in the sequence passes a values vector of schema length. -/
def opsLenOk (len : Nat) (l : List TableOp) : Bool :=
  l.all fun op =>
    match op with
    | TableOp.add values => values.length == len
    | _ => true

/-- The spec's parse rule for a clause literal: `==`/`!=` parse by the
column's declared type, the four order operators always parse as float. -/
def specLitOk (op : String) (ct : ColumnType) (lit : String) : Bool :=
  if op == "==" || op == "!=" then
    match ct with
    | ColumnType.Int => (parseI64 lit).isSome
    | ColumnType.Float => (parseFloat lit).isSome
    | ColumnType.String => true
  else if op == ">" || op == "<" || op == ">=" || op == "<=" then
    (parseFloat lit).isSome
  else true

/-! ### Concrete fixtures used by the witness theorems -/

def demoCols : List ColumnSchema :=
  [ColumnSchema.mk ("id") ColumnType.Int,
   ColumnSchema.mk ("price") ColumnType.Float,
   ColumnSchema.mk ("name") ColumnType.String]

def wTable : Table :=
  Table.mk ("Users")
    (Schema.mk [ColumnSchema.mk ("id") ColumnType.Int,
                ColumnSchema.mk ("name") ColumnType.String])
    [Row.mk ["1", "Alice"], Row.mk ["2", "Bob"]]
    (some ("id")) []

def wPred : List String → Bool := fun v => v[0]? == some ("1")

def wEmptyTable : Table :=
  Table.mk ("Users")
    (Schema.mk [ColumnSchema.mk ("id") ColumnType.Int,
                ColumnSchema.mk ("name") ColumnType.String])
    [] (some ("id")) []

def wOps : List TableOp :=
  [TableOp.add ["1", "Alice"], TableOp.add ["1", "Carol"],
   TableOp.add ["2", "Bob"], TableOp.update ["", "Zed"] wPred]

def cexTable : Table :=
  Table.mk ("T") (Schema.mk [ColumnSchema.mk ("id") ColumnType.Int]) [] none []

def wExec : List String → String → List String := fun d q => d ++ [q]

def wNode : Node (List String) :=
  Node.mk Role.Replica [ReplicationEvent.mk 1 ("a"), ReplicationEvent.mk 2 ("b")] []

def wEvents : List ReplicationEvent :=
  [ReplicationEvent.mk 1 ("a"), ReplicationEvent.mk 2 ("b"), ReplicationEvent.mk 3 ("c")]

def wPrimary : Node (List String) := Node.mk Role.Primary [] []

/-! ### Replication theorems -/

theorem foldl_replayStep {DB : Type} (exec : DB → String → DB) :
    ∀ (l : List ReplicationEvent) (db : DB) (ev : List ReplicationEvent),
      l.foldl (replayStep exec) (db, ev) =
        ((l.map fun e => e.query).foldl exec db, ev ++ l) := by
  intro l
  induction l with
  | nil => intro db ev; simp
  | cons e rest ih =>
      intro db ev
      simp only [List.foldl_cons, List.map_cons, replayStep, ih]
      simp

/-- C5: on a Replica with local log length `c`, `apply_events(list)`
replays exactly the elements of `list` from position `c` on, in order,
executing each stored query once and appending each event to the log;
with `n > c` incoming events the log ends at length `n`, with `n ≤ c`
nothing changes; the call succeeds. -/
theorem apply_events_replica {DB : Type} (exec : DB → String → DB)
    (n : Node DB) (events : List ReplicationEvent)
    (h : n.role = Role.Replica) :
    apply_events exec n events =
      Except.ok (Node.mk Role.Replica (n.events ++ events.drop n.events.length)
        (((events.drop n.events.length).map fun e => e.query).foldl exec n.db)) ∧
    (n.events.length < events.length →
      (n.events ++ events.drop n.events.length).length = events.length) ∧
    (events.length ≤ n.events.length → apply_events exec n events = Except.ok n) := by
  obtain ⟨r, ev, db⟩ := n
  simp only at h
  subst h
  refine ⟨?_, ?_, ?_⟩
  · simp [apply_events, foldl_replayStep]
  · intro hlt
    dsimp only at hlt ⊢
    simp only [List.length_append, List.length_drop]
    omega
  · intro hle
    dsimp only at hle
    have hnil : events.drop ev.length = [] := by
      simp only [List.drop_eq_nil_iff]
      omega
    simp [apply_events, hnil]

theorem apply_events_replica_witness :
    apply_events wExec wNode wEvents = Except.ok (Node.mk Role.Replica wEvents ["c"]) ∧
    wEvents.length = 3 ∧ wNode.events.length = 2 :=
  ⟨((apply_events_replica wExec wNode wEvents rfl).1).trans (by rfl), rfl, rfl⟩

/-- C6: `apply_events` invoked on a Primary returns an explicit error
(surfaced as a JSON-RPC internal error by the RPC layer), and the node's
database and event log are unchanged. -/
theorem apply_events_primary {DB : Type} (exec : DB → String → DB)
    (n : Node DB) (events : List ReplicationEvent)
    (h : n.role = Role.Primary) :
    apply_events exec n events =
      Except.error ("Cannot apply replication events to primary server") ∧
    replication_apply_events exec n events = (RpcResult.internalError, n) := by
  have h1 : apply_events exec n events =
      Except.error ("Cannot apply replication events to primary server") := by
    simp [apply_events, h]
  exact ⟨h1, by simp [replication_apply_events, h1]⟩

theorem apply_events_primary_witness :
    apply_events wExec wPrimary wEvents =
      Except.error ("Cannot apply replication events to primary server") ∧
    replication_apply_events wExec wPrimary wEvents = (RpcResult.internalError, wPrimary) :=
  apply_events_primary wExec wPrimary wEvents rfl

/-- C10: the RPC `execute` method on a Replica returns
`success = false` with an explanatory message for every query string
(SELECT included), touches neither the database nor the event log, and
never invokes the statement executor (the outcome is the same for every
`exec`). -/
theorem execute_replica_rejects {DB : Type} (exec : DB → String → DB)
    (now : Nat) (n : Node DB) (query : String)
    (h : n.role = Role.Replica) :
    rpc_execute exec now n query =
      (QueryResponse.mk false
        ("This is a replica server. Write operations are only allowed on the primary server.")
        none, n) := by
  simp [rpc_execute, h]

theorem execute_replica_rejects_witness :
    rpc_execute wExec 0 wNode ("SELECT * FROM Users") =
      (QueryResponse.mk false
        "This is a replica server. Write operations are only allowed on the primary server."
        none, wNode) :=
  execute_replica_rejects wExec 0 wNode ("SELECT * FROM Users") rfl

/-! ### Table-layer helper lemmas -/

theorem hasDupAux_eq_false_iff :
    ∀ (l seen : List String), hasDupAux l seen = false ↔
      l.Nodup ∧ ∀ v ∈ l, v ∉ seen := by
  intro l
  induction l with
  | nil => intro seen; simp [hasDupAux]
  | cons v rest ih =>
      intro seen
      by_cases hv : v ∈ seen
      · simp only [hasDupAux, if_pos hv]
        constructor
        · intro h; simp at h
        · rintro ⟨-, h2⟩
          exact absurd hv (h2 v (by simp))
      · simp only [hasDupAux, if_neg hv]
        rw [ih]
        constructor
        · rintro ⟨h1, h2⟩
          refine ⟨List.nodup_cons.mpr ⟨fun hm => ?_, h1⟩, ?_⟩
          · exact (h2 v hm) (by simp)
          · intro w hw
            rcases List.mem_cons.mp hw with rfl | hw2
            · exact hv
            · intro hsw
              exact (h2 w hw2) (List.mem_cons_of_mem v hsw)
        · rintro ⟨h1, h2⟩
          obtain ⟨hvr, h1r⟩ := List.nodup_cons.mp h1
          refine ⟨h1r, ?_⟩
          intro w hw hwseen
          rcases List.mem_cons.mp hwseen with rfl | hw2
          · exact hvr hw
          · exact (h2 w (List.mem_cons_of_mem v hw)) hw2

theorem hasDup_eq (l : List String) : hasDup l = !(decide l.Nodup) := by
  cases h : hasDupAux l [] with
  | false =>
      have hh := (hasDupAux_eq_false_iff l []).mp h
      simp [hasDup, h, hh.1]
  | true =>
      have hnd : ¬ l.Nodup := by
        intro hn
        have hf : hasDupAux l [] = false :=
          (hasDupAux_eq_false_iff l []).mpr ⟨hn, by simp⟩
        rw [hf] at h; cases h
      simp [hasDup, h, hnd]

theorem typeCheckUpdateFrom_eq_true_iff (cols : List ColumnSchema) :
    ∀ (sv : List String) (k : Nat),
      typeCheckUpdateFrom cols k sv = true ↔
        ∀ (j : Nat) (v : String) (c : ColumnSchema), sv[j]? = some v → v ≠ "" →
          cols[k + j]? = some c → typeValid c.col_type v = true := by
  intro sv
  induction sv with
  | nil =>
      intro k
      simp [typeCheckUpdateFrom]
  | cons v rest ih =>
      intro k
      simp only [typeCheckUpdateFrom, Bool.and_eq_true]
      rw [ih (k + 1)]
      constructor
      · rintro ⟨hhead, htail⟩ j w c hj hw hc
        cases j with
        | zero =>
            rw [List.getElem?_cons_zero] at hj
            injection hj with hj
            subst hj
            rw [if_neg (by simp [hw])] at hhead
            rw [Nat.add_zero] at hc
            rw [hc] at hhead
            exact hhead
        | succ j2 =>
            rw [List.getElem?_cons_succ] at hj
            have e : k + (j2 + 1) = (k + 1) + j2 := by omega
            rw [e] at hc
            exact htail j2 w c hj hw hc
      · intro h
        constructor
        · by_cases hv : v = ""
          · simp [hv]
          · rw [if_neg (by simp [hv])]
            cases hc : cols[k]? with
            | none => rfl
            | some c => exact h 0 v c (by simp) hv (by simpa using hc)
        · intro j w c hj hw hc
          have e : (k + 1) + j = k + (j + 1) := by omega
          rw [e] at hc
          exact h (j + 1) w c (by simpa using hj) hw hc

theorem specSetTypeFail_eq_true_iff (cols : List ColumnSchema) (sv : List String) :
    specSetTypeFail cols sv = true ↔
      ∃ (j : Nat) (v : String) (c : ColumnSchema), sv[j]? = some v ∧ cols[j]? = some c ∧
        v ≠ "" ∧ typeValid c.col_type v = false := by
  simp only [specSetTypeFail, List.any_eq_true, List.mem_range]
  constructor
  · rintro ⟨j, hj, hmatch⟩
    cases hsv : sv[j]? with
    | none => rw [hsv] at hmatch; simp at hmatch
    | some v =>
        cases hc : cols[j]? with
        | none => rw [hsv, hc] at hmatch; simp at hmatch
        | some c =>
            rw [hsv, hc] at hmatch
            simp only [Bool.and_eq_true, Bool.not_eq_true'] at hmatch
            refine ⟨j, v, c, hsv, hc, ?_, ?_⟩
            · simpa using hmatch.1
            · simpa using hmatch.2
  · rintro ⟨j, v, c, hsv, hc, hv, hval⟩
    refine ⟨j, ?_, ?_⟩
    · obtain ⟨hlt, -⟩ := List.getElem?_eq_some.mp hsv
      exact hlt
    · rw [hsv, hc]
      simp [hv, hval]

theorem typeCheckUpdate_eq (cols : List ColumnSchema) (sv : List String) :
    typeCheckUpdate cols sv = !(specSetTypeFail cols sv) := by
  cases hs : specSetTypeFail cols sv with
  | false =>
      simp only [Bool.not_false]
      rw [typeCheckUpdate, typeCheckUpdateFrom_eq_true_iff cols sv 0]
      intro j v c hj hv hc
      cases hval : typeValid c.col_type v with
      | true => rfl
      | false =>
          have habs : specSetTypeFail cols sv = true := by
            rw [specSetTypeFail_eq_true_iff]
            exact ⟨j, v, c, hj, by simpa using hc, hv, hval⟩
          rw [habs] at hs; cases hs
  | true =>
      simp only [Bool.not_true]
      obtain ⟨j, v, c, hj, hc, hv, hval⟩ := (specSetTypeFail_eq_true_iff cols sv).mp hs
      cases hb : typeCheckUpdate cols sv with
      | false => rfl
      | true =>
          rw [typeCheckUpdate, typeCheckUpdateFrom_eq_true_iff cols sv 0] at hb
          have := hb j v c hj hv (by simpa using hc)
          rw [this] at hval; cases hval

theorem constraintViolation_eq (t : Table) (rows : List Row) :
    (pkViolationUpd t rows || uniqViolationUpd t rows) = specConstraintViolation t rows := by
  simp only [pkViolationUpd, uniqViolationUpd, specConstraintViolation, hasDup_eq]

/-- C1: `update_rows` is all-or-nothing.  If some non-empty entry of
`set_values` fails to parse under its column's declared type, or the
simulated post-state (the whole table with the tentative merge applied
to every predicate-matching row) has a primary-key or unique-column
duplicate among present values, the table is returned exactly as it
was; otherwise the merge is installed for every matched row. -/
theorem update_rows_atomic (t : Table) (sv : List String) (p : List String → Bool) :
    update_rows t sv p =
      if specUpdateAborts t sv p then t
      else { t with rows := mergedRows sv p t.rows } := by
  cases h1 : specSetTypeFail t.schema.columns sv <;>
    cases h2 : pkViolationUpd t (mergedRows sv p t.rows) <;>
      cases h3 : uniqViolationUpd t (mergedRows sv p t.rows) <;>
        simp [update_rows, specUpdateAborts, typeCheckUpdate_eq,
          ← constraintViolation_eq, h1, h2, h3]

theorem mergeRow_getElem :
    ∀ (sv vals : List String) (i : Nat),
      (mergeRow sv vals)[i]? =
        match sv[i]? with
        | some w => if w ≠ "" ∧ i < vals.length then some w else vals[i]?
        | none => vals[i]? := by
  intro sv vals
  induction vals generalizing sv with
  | nil =>
      intro i
      cases sv with
      | nil => simp [mergeRow]
      | cons v svr =>
          simp only [mergeRow]
          cases hsv : (v :: svr)[i]? with
          | none => simp
          | some w => simp
  | cons o oldr ih =>
      intro i
      cases sv with
      | nil => simp [mergeRow]
      | cons v svr =>
          simp only [mergeRow]
          cases i with
          | zero =>
              by_cases hv : v = ""
              · simp [hv]
              · simp [hv]
          | succ j =>
              simp only [List.getElem?_cons_succ]
              rw [ih svr j]
              cases hsv : svr[j]? with
              | none => simp
              | some w =>
                  simp only [List.length_cons]
                  by_cases hw : w = ""
                  · simp [hw]
                  · by_cases hj : j < oldr.length
                    · rw [if_pos ⟨hw, hj⟩, if_pos ⟨hw, by omega⟩]
                    · rw [if_neg (by tauto), if_neg (by rw [Nat.succ_lt_succ_iff]; tauto)]

/-- C9: when `update_rows` commits, rows failing the predicate are kept
unchanged and matched rows receive exactly the merge; within the merge,
a position whose `set_values` entry is the empty-string sentinel (or is
absent) keeps the previous value, and a position can only change to a
non-empty `set_values` entry. -/
theorem update_rows_frame (t : Table) (sv : List String) (p : List String → Bool)
    (vals : List String) (i : Nat)
    (hc : update_commits t sv p = true) :
    (update_rows t sv p).rows =
      (t.rows.map fun r => if p r.values then Row.mk (mergeRow sv r.values) else r) ∧
    (mergeRow sv vals)[i]? =
      (match sv[i]? with
       | some w => if w ≠ "" ∧ i < vals.length then some w else vals[i]?
       | none => vals[i]?) := by
  simp only [update_commits, Bool.and_eq_true, Bool.not_eq_true'] at hc
  obtain ⟨⟨hty, hpk⟩, huq⟩ := hc
  constructor
  · have h1 : update_rows t sv p = { t with rows := mergedRows sv p t.rows } := by
      simp [update_rows, hty, hpk, huq]
    rw [h1]
    simp [mergedRows]
  · exact mergeRow_getElem sv vals i

theorem update_rows_frame_witness :
    (update_rows wTable ["", "Zed"] wPred).rows =
      (wTable.rows.map fun r =>
        if wPred r.values then Row.mk (mergeRow ["", "Zed"] r.values) else r) ∧
    (mergeRow ["", "Zed"] ["1", "Alice"])[0]? =
      (match (["", "Zed"] : List String)[0]? with
       | some w => if w ≠ "" ∧ 0 < (["1", "Alice"] : List String).length then some w
                   else (["1", "Alice"] : List String)[0]?
       | none => (["1", "Alice"] : List String)[0]?) :=
  update_rows_frame wTable ["", "Zed"] wPred ["1", "Alice"] 0 (by decide)

theorem with_rows_schema (t : Table) (rows : List Row) :
    ({ t with rows := rows } : Table).schema = t.schema := rfl

theorem with_rows_uniq (t : Table) (rows : List Row) :
    ({ t with rows := rows } : Table).unique_columns = t.unique_columns := rfl

theorem with_rows_rows (t : Table) (rows : List Row) :
    ({ t with rows := rows } : Table).rows = rows := rfl

theorem pkIdx_with_rows (t : Table) (rows : List Row) :
    pkIdx { t with rows := rows } = pkIdx t := rfl

theorem presentVals_append (idx : Nat) (rows : List Row) (r : Row) :
    presentVals idx (rows ++ [r]) =
      presentVals idx rows ++ (r.values[idx]?).toList := by
  simp only [presentVals, List.filterMap_append, List.filterMap_cons, List.filterMap_nil]
  cases h : r.values[idx]? <;> simp [h]

theorem mem_presentVals (idx : Nat) (rows : List Row) (v : String) :
    v ∈ presentVals idx rows ↔ ∃ r ∈ rows, r.values[idx]? = some v := by
  simp [presentVals, List.mem_filterMap]

theorem nodup_append_fresh {l : List String} {v : String}
    (h1 : l.Nodup) (h2 : v ∉ l) : (l ++ [v]).Nodup := by
  rw [List.nodup_append]
  refine ⟨h1, List.nodup_singleton v, ?_⟩
  intro a ha hav
  rcases List.mem_singleton.mp hav with rfl
  exact h2 ha

theorem any_present_of_mem {idx : Nat} {rows : List Row} {v : String}
    (hvmem : v ∈ presentVals idx rows) :
    (rows.any fun row => row.values[idx]? == some v) = true := by
  obtain ⟨r, hr, hrv⟩ := (mem_presentVals idx rows v).mp hvmem
  exact List.any_eq_true.mpr ⟨r, hr, by rw [hrv]; simp⟩

theorem add_row_preserves_inv (t : Table) (values : List String)
    (h : tableInv t = true) : tableInv (add_row t values) = true := by
  cases h1 : typeCheckAdd t.schema.columns values with
  | false => simpa [add_row, h1] using h
  | true =>
      cases h2 : pkViolationAdd t values with
      | true => simpa [add_row, h1, h2] using h
      | false =>
          cases h3 : uniqViolationAdd t values with
          | true => simpa [add_row, h1, h2, h3] using h
          | false =>
              have hres : add_row t values = { t with rows := t.rows ++ [Row.mk values] } := by
                simp [add_row, h1, h2, h3]
              rw [hres]
              simp only [tableInv, Bool.and_eq_true, pkIdx_with_rows, with_rows_schema,
                with_rows_uniq, with_rows_rows] at h ⊢
              obtain ⟨hpk, huniq⟩ := h
              constructor
              · cases hidx : pkIdx t with
                | none => simp [nodupPresent]
                | some idx =>
                    simp only [nodupPresent, hidx, decide_eq_true_eq] at hpk ⊢
                    simp only [pkViolationAdd, hidx] at h2
                    cases hval : values[idx]? with
                    | none => simp [hval] at h2
                    | some v =>
                        simp only [hval] at h2
                        rw [presentVals_append]
                        have hfresh : v ∉ presentVals idx t.rows := by
                          intro hvmem
                          rw [any_present_of_mem hvmem] at h2
                          cases h2
                        have hv2 : (Row.mk values).values[idx]? = some v := hval
                        rw [hv2]
                        simpa using nodup_append_fresh hpk hfresh
              · rw [List.all_eq_true] at huniq ⊢
                intro uc hmem
                have h5 := huniq uc hmem
                cases hci : colIdx t.schema.columns uc with
                | none => simp [nodupPresent, hci]
                | some idx =>
                    simp only [nodupPresent, hci, decide_eq_true_eq] at h5 ⊢
                    cases hval : values[idx]? with
                    | none =>
                        rw [presentVals_append]
                        have hv2 : (Row.mk values).values[idx]? = none := hval
                        rw [hv2]
                        simpa using h5
                    | some v =>
                        have h4 : (t.rows.any fun row => row.values[idx]? == some v) = false := by
                          cases hb : (t.rows.any fun row => row.values[idx]? == some v) with
                          | false => rfl
                          | true =>
                              exfalso
                              have hu : uniqViolationAdd t values = true := by
                                rw [uniqViolationAdd, List.any_eq_true]
                                refine ⟨uc, hmem, ?_⟩
                                simp only [hci, hval]
                                exact hb
                              rw [hu] at h3; cases h3
                        rw [presentVals_append]
                        have hfresh : v ∉ presentVals idx t.rows := by
                          intro hvmem
                          rw [any_present_of_mem hvmem] at h4
                          cases h4
                        have hv2 : (Row.mk values).values[idx]? = some v := hval
                        rw [hv2]
                        simpa using nodup_append_fresh h5 hfresh

theorem update_rows_preserves_inv (t : Table) (sv : List String) (p : List String → Bool)
    (h : tableInv t = true) : tableInv (update_rows t sv p) = true := by
  cases h1 : typeCheckUpdate t.schema.columns sv with
  | false => simpa [update_rows, h1] using h
  | true =>
      cases h2 : pkViolationUpd t (mergedRows sv p t.rows) with
      | true => simpa [update_rows, h1, h2] using h
      | false =>
          cases h3 : uniqViolationUpd t (mergedRows sv p t.rows) with
          | true => simpa [update_rows, h1, h2, h3] using h
          | false =>
              have hres : update_rows t sv p = { t with rows := mergedRows sv p t.rows } := by
                simp [update_rows, h1, h2, h3]
              rw [hres]
              simp only [tableInv, Bool.and_eq_true, pkIdx_with_rows, with_rows_schema,
                with_rows_uniq, with_rows_rows]
              constructor
              · cases hidx : pkIdx t with
                | none => simp [nodupPresent]
                | some idx =>
                    simp only [nodupPresent, decide_eq_true_eq]
                    simp only [pkViolationUpd, hidx] at h2
                    rw [hasDup_eq] at h2
                    simpa using h2
              · rw [List.all_eq_true]
                intro uc hmem
                cases hci : colIdx t.schema.columns uc with
                | none => simp [nodupPresent, hci]
                | some idx =>
                    simp only [nodupPresent, hci, decide_eq_true_eq]
                    have h4 : hasDup (presentVals idx (mergedRows sv p t.rows)) = false := by
                      cases hb : hasDup (presentVals idx (mergedRows sv p t.rows)) with
                      | false => rfl
                      | true =>
                          exfalso
                          have hu : uniqViolationUpd t (mergedRows sv p t.rows) = true := by
                            rw [uniqViolationUpd, List.any_eq_true]
                            refine ⟨uc, hmem, ?_⟩
                            simp only [hci]
                            exact hb
                          rw [hu] at h3; cases h3
                    rw [hasDup_eq] at h4
                    simpa using h4

theorem delete_rows_preserves_inv (t : Table) (p : List String → Bool)
    (h : tableInv t = true) : tableInv (delete_rows t p) = true := by
  simp only [delete_rows]
  simp only [tableInv, Bool.and_eq_true, pkIdx_with_rows, with_rows_schema,
    with_rows_uniq, with_rows_rows] at h ⊢
  obtain ⟨hpk, huniq⟩ := h
  have hsub : ∀ idx : Nat,
      List.Sublist (presentVals idx (t.rows.filter fun r => !(p r.values)))
        (presentVals idx t.rows) := by
    intro idx
    exact List.Sublist.filterMap _ (List.filter_sublist t.rows)
  constructor
  · cases hidx : pkIdx t with
    | none => simp [nodupPresent]
    | some idx =>
        simp only [nodupPresent, hidx, decide_eq_true_eq] at hpk ⊢
        exact hpk.sublist (hsub idx)
  · rw [List.all_eq_true] at huniq ⊢
    intro uc hmem
    have h5 := huniq uc hmem
    cases hci : colIdx t.schema.columns uc with
    | none => simp [nodupPresent, hci]
    | some idx =>
        simp only [nodupPresent, hci, decide_eq_true_eq] at h5 ⊢
        exact h5.sublist (hsub idx)

/-- C2: starting from any table satisfying the constraint invariant,
every sequence of mutating calls (`add_row`, `update_rows`, and also
`delete_rows`) keeps the invariant at every point: primary-key values
stay pairwise distinct and each unique column's present values stay
pairwise distinct (rows with no value at the column are exempt).  Every
intermediate point of a sequence is `runOps` of one of its prefixes, so
this single statement covers all observable points. -/
theorem constraint_invariant_sequences (t : Table) (l : List TableOp)
    (h : tableInv t = true) : tableInv (runOps t l) = true := by
  induction l generalizing t with
  | nil => exact h
  | cons op rest ih =>
      rw [runOps, List.foldl_cons]
      refine ih (applyOp t op) ?_
      cases op with
      | add values => exact add_row_preserves_inv t values h
      | update sv p => exact update_rows_preserves_inv t sv p h
      | delete p => exact delete_rows_preserves_inv t p h

theorem constraint_invariant_sequences_witness :
    tableInv (runOps wEmptyTable wOps) = true :=
  constraint_invariant_sequences wEmptyTable wOps (by decide)

theorem mergeRow_length : ∀ (sv vals : List String), (mergeRow sv vals).length = vals.length := by
  intro sv vals
  induction vals generalizing sv with
  | nil => cases sv <;> simp [mergeRow]
  | cons o oldr ih =>
      cases sv with
      | nil => simp [mergeRow]
      | cons v svr => simp [mergeRow, ih svr]

theorem add_row_cases (t : Table) (values : List String) :
    add_row t values = t ∨
    add_row t values = { t with rows := t.rows ++ [Row.mk values] } := by
  simp only [add_row]
  split
  · exact Or.inl rfl
  · split
    · exact Or.inl rfl
    · split
      · exact Or.inl rfl
      · exact Or.inr rfl

theorem update_rows_cases (t : Table) (sv : List String) (p : List String → Bool) :
    update_rows t sv p = t ∨
    update_rows t sv p = { t with rows := mergedRows sv p t.rows } := by
  simp only [update_rows]
  split
  · exact Or.inl rfl
  · split
    · exact Or.inl rfl
    · split
      · exact Or.inl rfl
      · exact Or.inr rfl

theorem applyOp_schema (t : Table) (op : TableOp) : (applyOp t op).schema = t.schema := by
  cases op with
  | add values =>
      rcases add_row_cases t values with h | h <;>
        simp only [applyOp, h, with_rows_schema]
  | update sv p =>
      rcases update_rows_cases t sv p with h | h <;>
        simp only [applyOp, h, with_rows_schema]
  | delete p => rfl

/-- C3 counterexample: `add_row` performs no arity check, so a table
with a single-column schema accepts a two-value row as given, leaving a
stored row whose length differs from the schema length. -/
theorem add_row_length_counterexample :
    (add_row cexTable ["1", "2"]).rows = [Row.mk ["1", "2"]] ∧
    cexTable.schema.columns.length = 1 ∧
    rowsLenOk (add_row cexTable ["1", "2"]) = false := by decide

/-- C3 (amended): provided every `add_row` call in the sequence passes a
values vector of schema length, all stored rows keep length equal to
the schema length through any sequence of `add_row`, `update_rows`, and
`delete_rows` calls (the latter two never change a row's length).
`add_row` itself never checks the arity, so the side condition on the
calls is necessary. -/
theorem row_length_invariant (t : Table) (l : List TableOp)
    (h0 : rowsLenOk t = true) (h1 : opsLenOk t.schema.columns.length l = true) :
    rowsLenOk (runOps t l) = true := by
  induction l generalizing t with
  | nil => exact h0
  | cons op rest ih =>
      rw [runOps, List.foldl_cons]
      simp only [opsLenOk, List.all_cons, Bool.and_eq_true] at h1
      obtain ⟨hop, hrest⟩ := h1
      have hstep : rowsLenOk (applyOp t op) = true := by
        cases op with
        | add values =>
            rcases add_row_cases t values with h | h
            · rw [show applyOp t (TableOp.add values) = add_row t values from rfl, h]
              exact h0
            · rw [show applyOp t (TableOp.add values) = add_row t values from rfl, h]
              simp only [rowsLenOk, with_rows_schema, with_rows_rows,
                List.all_eq_true] at h0 ⊢
              intro r hr
              rcases List.mem_append.mp hr with hr1 | hr2
              · exact h0 r hr1
              · rcases List.mem_singleton.mp hr2 with rfl
                simpa using hop
        | update sv p =>
            rcases update_rows_cases t sv p with h | h
            · rw [show applyOp t (TableOp.update sv p) = update_rows t sv p from rfl, h]
              exact h0
            · rw [show applyOp t (TableOp.update sv p) = update_rows t sv p from rfl, h]
              simp only [rowsLenOk, with_rows_schema, with_rows_rows,
                List.all_eq_true] at h0 ⊢
              intro r hr
              simp only [mergedRows, List.mem_map] at hr
              obtain ⟨r0, hr0, rfl⟩ := hr
              by_cases hp : p r0.values = true
              · simp [hp, mergeRow_length]
                simpa using h0 r0 hr0
              · simp only [Bool.not_eq_true] at hp
                simp [hp]
                simpa using h0 r0 hr0
        | delete p =>
            rw [show applyOp t (TableOp.delete p) = delete_rows t p from rfl]
            simp only [delete_rows, rowsLenOk, with_rows_schema, with_rows_rows,
              List.all_eq_true] at h0 ⊢
            intro r hr
            exact h0 r (List.mem_of_mem_filter hr)
      refine ih (applyOp t op) hstep ?_
      rw [applyOp_schema]
      exact hrest

theorem row_length_invariant_witness :
    rowsLenOk (runOps wEmptyTable wOps) = true :=
  row_length_invariant wEmptyTable wOps (by decide) (by decide)

/-! ### Predicate-compiler lemmas and theorems -/

theorem findOpAux_mem (q : List Char) :
    ∀ (l : List String) (op : String) (i : Nat), findOpAux q l = some (op, i) → op ∈ l := by
  intro l
  induction l with
  | nil => intro op i h; simp [findOpAux] at h
  | cons a rest ih =>
      intro op i h
      simp only [findOpAux] at h
      cases hfa : findSub q a.data with
      | some j =>
          rw [hfa] at h
          simp only [Option.some.injEq, Prod.mk.injEq] at h
          rw [← h.1]
          exact List.mem_cons_self a rest
      | none =>
          rw [hfa] at h
          exact List.mem_cons_of_mem a (ih op i h)

theorem clauseParts_op_mem (q : String) (op col lit : String)
    (h : clauseParts q = some (op, col, lit)) : op ∈ ops := by
  simp only [clauseParts] at h
  cases hf : findOp q.data with
  | none => rw [hf] at h; exact Option.noConfusion h
  | some pr =>
      rw [hf] at h
      simp only [Option.some.injEq, Prod.mk.injEq] at h
      have h2 : findOpAux q.data ops = some (pr.1, pr.2) := hf
      have h3 := findOpAux_mem q.data ops pr.1 pr.2 h2
      rw [h.1] at h3
      exact h3

theorem findOpAux_eq_some_iff (q : List Char) :
    ∀ (l : List String) (op : String) (i : Nat),
      findOpAux q l = some (op, i) ↔
        ∃ l1 l2, l = l1 ++ op :: l2 ∧ (∀ o ∈ l1, findSub q o.data = none) ∧
          findSub q op.data = some i := by
  intro l
  induction l with
  | nil =>
      intro op i
      constructor
      · intro h; simp [findOpAux] at h
      · rintro ⟨l1, l2, hdec, -, -⟩
        exact absurd hdec (by simp)
  | cons a rest ih =>
      intro op i
      simp only [findOpAux]
      cases hfa : findSub q a.data with
      | some j =>
          constructor
          · intro h
            simp only [Option.some.injEq, Prod.mk.injEq] at h
            obtain ⟨h1, h2⟩ := h
            subst h1; subst h2
            exact ⟨[], rest, rfl, by simp, hfa⟩
          · rintro ⟨l1, l2, hdec, hnone, hop⟩
            cases l1 with
            | nil =>
                simp only [List.nil_append] at hdec
                injection hdec with h1 h2
                subst h1
                rw [hfa] at hop
                injection hop with h3
                rw [h3]
            | cons b l1t =>
                simp only [List.cons_append] at hdec
                injection hdec with h1 h2
                subst h1
                have hb := hnone a (by simp)
                rw [hb] at hfa
                exact Option.noConfusion hfa
      | none =>
          rw [ih op i]
          constructor
          · rintro ⟨l1, l2, hdec, hnone, hop⟩
            refine ⟨a :: l1, l2, by simp [hdec], ?_, hop⟩
            intro o ho
            rcases List.mem_cons.mp ho with rfl | ho2
            · exact hfa
            · exact hnone o ho2
          · rintro ⟨l1, l2, hdec, hnone, hop⟩
            cases l1 with
            | nil =>
                simp only [List.nil_append] at hdec
                injection hdec with h1 h2
                subst h1
                rw [hop] at hfa
                exact Option.noConfusion hfa
            | cons b l1t =>
                simp only [List.cons_append] at hdec
                injection hdec with h1 h2
                subst h1
                exact ⟨l1t, l2, h2, fun o ho => hnone o (List.mem_cons_of_mem _ ho), hop⟩

theorem findSubAux_spec (needle : List Char) :
    ∀ (hay : List Char) (k i : Nat), findSubAux needle hay k = some i →
      k ≤ i ∧ needle.isPrefixOf (hay.drop (i - k)) = true ∧
        ∀ j, j < i - k → needle.isPrefixOf (hay.drop j) = false := by
  intro hay
  induction hay with
  | nil =>
      intro k i h
      simp only [findSubAux] at h
      by_cases hne : needle.isEmpty = true
      · rw [if_pos hne] at h
        injection h with h1
        subst h1
        rw [List.isEmpty_iff] at hne
        subst hne
        refine ⟨Nat.le_refl k, by simp, ?_⟩
        intro j hj
        omega
      · rw [if_neg hne] at h
        exact Option.noConfusion h
  | cons c rest ih =>
      intro k i h
      simp only [findSubAux] at h
      by_cases hp : needle.isPrefixOf (c :: rest) = true
      · rw [if_pos hp] at h
        injection h with h1
        subst h1
        refine ⟨Nat.le_refl k, ?_, ?_⟩
        · simpa [Nat.sub_self] using hp
        · intro j hj
          omega
      · have hp2 : needle.isPrefixOf (c :: rest) = false := by
          cases hb : needle.isPrefixOf (c :: rest)
          · rfl
          · exact absurd hb hp
        rw [if_neg hp] at h
        obtain ⟨hk, hpre, hall⟩ := ih (k + 1) i h
        refine ⟨by omega, ?_, ?_⟩
        · have e : (c :: rest).drop (i - k) = rest.drop (i - (k + 1)) := by
            have e2 : i - k = (i - (k + 1)) + 1 := by omega
            rw [e2, List.drop_succ_cons]
          rw [e]
          exact hpre
        · intro j hj
          cases j with
          | zero => simpa using hp2
          | succ j2 =>
              rw [List.drop_succ_cons]
              exact hall j2 (by omega)

/-- C7: for every clause, the operator-selection loop picks the first
operator of the fixed list `==, !=, >=, <=, >, <` that occurs anywhere
in the clause, splitting at that operator's first occurrence — not at
the occurrence earliest in the string.  The concrete clause `ab<c==d`
shows the difference: `<` occurs earlier (index 2) yet `==` (index 4)
is selected and the clause splits into column `ab<c` and literal `d`. -/
theorem op_scan_list_order :
    (∀ (q : List Char) (op : String) (i : Nat),
      findOp q = some (op, i) ↔
        ∃ l1 l2, ops = l1 ++ op :: l2 ∧ (∀ o ∈ l1, findSub q o.data = none) ∧
          findSub q op.data = some i) ∧
    (∀ (hay needle : List Char) (i : Nat), findSub hay needle = some i →
      needle.isPrefixOf (hay.drop i) = true ∧
      ∀ j, j < i → needle.isPrefixOf (hay.drop j) = false) ∧
    (clauseParts ("ab<c==d") = some (("=="), ("ab<c"), ("d")) ∧
      findSub ("ab<c==d").data ("==").data = some 4 ∧
      findSub ("ab<c==d").data ("<").data = some 2) := by
  refine ⟨?_, ?_, by decide, by decide, by decide⟩
  · intro q op i
    exact findOpAux_eq_some_iff q ops op i
  · intro hay needle i h
    obtain ⟨-, hpre, hall⟩ := findSubAux_spec needle hay 0 i h
    refine ⟨by simpa using hpre, ?_⟩
    intro j hj
    exact hall j (by omega)

theorem trivial_shortcut_false (query : String) (r : String × String × String)
    (hParts : clauseParts (strTrim query) = some r) :
    (strTrim query == "" || strTrim query == "true") = false := by
  cases hb : (strTrim query == "" || strTrim query == "true") with
  | false => rfl
  | true =>
      exfalso
      simp only [Bool.or_eq_true, beq_iff_eq] at hb
      rcases hb with h | h <;> rw [h] at hParts
      · have h2 : clauseParts ("") = none := by decide
        rw [h2] at hParts
        exact Option.noConfusion hParts
      · have h2 : clauseParts ("true") = none := by decide
        rw [h2] at hParts
        exact Option.noConfusion hParts

theorem compareFn_lit_fail (op : String) (ct : ColumnType) (i : Nat) (lit : String)
    (row : List String) (hop : op ∈ ops)
    (h : specLitOk op ct lit = false) :
    compareFn op ct i lit row = false := by
  simp only [ops, List.mem_cons, List.mem_singleton, List.not_mem_nil, or_false] at hop
  rcases hop with rfl | rfl | rfl | rfl | rfl | rfl
  · simp only [specLitOk] at h
    rw [if_pos (by decide)] at h
    simp only [compareFn]
    rw [if_pos (by decide)]
    cases ct with
    | Int =>
        dsimp only at h ⊢
        cases hp : parseI64 lit with
        | none => rfl
        | some n => rw [hp] at h; exact Bool.noConfusion h
    | Float =>
        dsimp only at h ⊢
        cases hp : parseFloat lit with
        | none => rfl
        | some n => rw [hp] at h; exact Bool.noConfusion h
    | String =>
        dsimp only at h
        exact Bool.noConfusion h
  · simp only [specLitOk] at h
    rw [if_pos (by decide)] at h
    simp only [compareFn]
    rw [if_neg (by decide), if_pos (by decide)]
    cases ct with
    | Int =>
        dsimp only at h ⊢
        cases hp : parseI64 lit with
        | none => rfl
        | some n => rw [hp] at h; exact Bool.noConfusion h
    | Float =>
        dsimp only at h ⊢
        cases hp : parseFloat lit with
        | none => rfl
        | some n => rw [hp] at h; exact Bool.noConfusion h
    | String =>
        dsimp only at h
        exact Bool.noConfusion h
  · simp only [specLitOk] at h
    rw [if_neg (by decide), if_pos (by decide)] at h
    simp only [compareFn]
    rw [if_neg (by decide), if_neg (by decide), if_pos (by decide)]
    cases hp : parseFloat lit with
    | none => rfl
    | some n => rw [hp] at h; exact Bool.noConfusion h
  · simp only [specLitOk] at h
    rw [if_neg (by decide), if_pos (by decide)] at h
    simp only [compareFn]
    rw [if_neg (by decide), if_neg (by decide), if_pos (by decide)]
    cases hp : parseFloat lit with
    | none => rfl
    | some n => rw [hp] at h; exact Bool.noConfusion h
  · simp only [specLitOk] at h
    rw [if_neg (by decide), if_pos (by decide)] at h
    simp only [compareFn]
    rw [if_neg (by decide), if_neg (by decide), if_pos (by decide)]
    cases hp : parseFloat lit with
    | none => rfl
    | some n => rw [hp] at h; exact Bool.noConfusion h
  · simp only [specLitOk] at h
    rw [if_neg (by decide), if_pos (by decide)] at h
    simp only [compareFn]
    rw [if_neg (by decide), if_neg (by decide), if_pos (by decide)]
    cases hp : parseFloat lit with
    | none => rfl
    | some n => rw [hp] at h; exact Bool.noConfusion h

/-- C4: a compiled clause is fail-closed.  If its column name resolves
to no schema column by exact name, or its literal fails to parse under
the rule for its operator and the resolved column's declared type, the
compiled predicate returns `false` on every row. -/
theorem query_fail_closed (cols : List ColumnSchema) (query op col lit : String)
    (row : List String)
    (hParts : clauseParts (strTrim query) = some (op, col, lit))
    (hBad : colIdx cols col = none ∨
      ∃ (i : Nat) (cs : ColumnSchema), colIdx cols col = some i ∧ cols[i]? = some cs ∧
        specLitOk op cs.col_type lit = false) :
    query_to_predicate cols query row = false := by
  have hnt := trivial_shortcut_false query (op, col, lit) hParts
  simp only [query_to_predicate]
  rw [if_neg (by simp [hnt])]
  rw [hParts]
  dsimp only
  rcases hBad with hnone | ⟨i, cs, hi, hcs, hbad⟩
  · rw [hnone]
  · rw [hi]
    dsimp only
    rw [hcs]
    dsimp only
    exact compareFn_lit_fail op cs.col_type i lit row
      (clauseParts_op_mem (strTrim query) op col lit hParts) hbad

theorem query_fail_closed_witness :
    query_to_predicate demoCols ("foo == 1") ["1", "2.5", "Pen"] = false :=
  query_fail_closed demoCols ("foo == 1") ("==") ("foo") ("1") ["1", "2.5", "Pen"]
    (by decide) (Or.inl (by decide))

/-- C8: for the operators `>`, `<`, `>=`, `<=` the compiled predicate
parses both the literal and the row value at the resolved position as
floating point, whatever the column's declared type is (`cs` is
arbitrary here): an unparseable literal compiles to constant-false, and
a row whose value does not parse as a float never matches. -/
theorem numeric_compare_ignores_type (cols : List ColumnSchema)
    (query op col lit : String) (i : Nat) (cs : ColumnSchema) (row : List String)
    (hParts : clauseParts (strTrim query) = some (op, col, lit))
    (hOp : op = ">" ∨ op = "<" ∨ op = ">=" ∨ op = "<=")
    (hCol : colIdx cols col = some i) (hCs : cols[i]? = some cs) :
    query_to_predicate cols query row =
      (match parseFloat lit with
       | none => false
       | some n =>
           match (row[i]?).bind parseFloat with
           | none => false
           | some v =>
               if op = ">" then fvalGt v n
               else if op = "<" then fvalLt v n
               else if op = ">=" then fvalGe v n
               else fvalLe v n) := by
  have hnt := trivial_shortcut_false query (op, col, lit) hParts
  simp only [query_to_predicate]
  rw [if_neg (by simp [hnt])]
  rw [hParts]
  dsimp only
  rw [hCol]
  dsimp only
  rw [hCs]
  dsimp only
  rcases hOp with rfl | rfl | rfl | rfl <;>
    · simp only [compareFn]
      rw [if_neg (by decide), if_neg (by decide), if_pos (by decide)]
      cases hp : parseFloat lit with
      | none => rfl
      | some n =>
          dsimp only
          cases hv : (row[i]?).bind parseFloat with
          | none => rfl
          | some v => rfl

theorem numeric_compare_ignores_type_witness :
    query_to_predicate demoCols ("price > 1.5") ["1", "2.5", "Pen"] = true :=
  (numeric_compare_ignores_type demoCols ("price > 1.5") (">") ("price") ("1.5")
      1 (ColumnSchema.mk ("price") ColumnType.Float) ["1", "2.5", "Pen"]
      (by decide) (Or.inl rfl) (by decide) (by decide)).trans (by decide)

end RustDB
